import Mathlib

/-!
Verification of the pursuit-game solver (`solution.py`).

The program labels every game configuration `(h, k, turn)` of a pursuit game
on an undirected self-looped graph as WINNING or LOSING for the player to
move, by retrograde propagation with escape counters, and then returns the
list of safe vertices for the evader.

The embedding below mirrors the Python source: the graph is a list of
neighbour lists (the Python sets, which are finite and duplicate-free), the
two dictionaries `nb_escapes` and `label` are modelled as functions into
`Option` (a `none` result of a lookup corresponds to a `KeyError`), and the
worklist loop is a fuel-indexed step function whose error branch is reached
exactly when a dictionary lookup fails.  The pop policy of the worklist is a
parameter so that the LIFO stack of the source and a FIFO queue variant can
be compared; `lifoPick` reproduces the source's `list.pop()` exactly (the
head of the Lean list plays the role of the end of the Python list).
-/

namespace ContractKiller

/-- A game configuration `(h, k, turn)`: evader position, pursuer position,
player to move. -/
abbrev Config : Type := ℕ × ℕ × ℕ

def HENRI : ℕ := 0

def KILLER : ℕ := 1

def LOOSING : ℕ := 0

def WINNING : ℕ := 1

def FORWARD : ℕ := 0

def BACKWARD : ℕ := 1

/-- The base graph: vertex `u`'s neighbour set is the `u`-th list. -/
abbrev Graph : Type := List (List ℕ)

/-- Neighbour list of a vertex (`G[u]` in the source; out-of-range access
yields the empty list, which only well-formedness rules out). -/
def nbrs (G : Graph) (u : ℕ) : List ℕ := G.getD u []

/-- The move generator of the source: configurations reached from `config`
in one move, in the given direction. -/
def move (config : Config) (G : Graph) (direction : ℕ) : List Config :=
  match config with
  | (h, k, turn) =>
    if turn = direction then
      (nbrs G h).map (fun h1 => (h1, k, 1 - turn))
    else
      (nbrs G k).map (fun k1 => (h, k1, 1 - turn))

/-- Enumeration of the whole configuration space, as in the source's
`configurations` generator. -/
def configurations (G : Graph) : List Config :=
  (List.range G.length).flatMap (fun h =>
    (List.range G.length).flatMap (fun k =>
      [(h, k, HENRI), (h, k, KILLER)]))

/-- Well-formedness of the input graph assumed by `solve`: at least one
vertex, duplicate-free neighbour lists (they embed Python sets), self-loops,
in-range and symmetric adjacency. -/
def WF (G : Graph) : Prop :=
  1 ≤ G.length ∧
    ∀ u < G.length, (nbrs G u).Nodup ∧ u ∈ nbrs G u ∧
      ∀ v ∈ nbrs G u, v < G.length ∧ u ∈ nbrs G v

/-- Solver state: the two dictionaries and the worklist of the source. -/
structure St : Type where
  nb_escapes : Config → Option ℤ
  label : Config → Option ℕ
  to_process : List Config

/-- Dictionary update (`d[c] = v`). -/
def setMap {α : Type} (m : Config → Option α) (c : Config) (v : α) :
    Config → Option α :=
  fun c1 => if c1 = c then some v else m c1

/-- Initial escape counters: the forward out-degree, for every configuration
(the dict comprehension of the source). -/
def initEsc (G : Graph) : Config → Option ℤ :=
  fun c =>
    if c ∈ configurations G then some ((move c G FORWARD).length : ℤ)
    else none

/-- Initial labels: every `(v, v, HENRI)` is LOSING, everything else is
unlabeled. -/
def initLabel (G : Graph) : Config → Option ℕ :=
  fun c =>
    if c.1 < G.length ∧ c.2.1 = c.1 ∧ c.2.2 = HENRI then some LOOSING
    else none

/-- Initial state.  The worklist holds the seed configurations; it is stored
with the end of the Python list first, so that the head is what `pop()`
returns. -/
def initSt (G : Graph) : St :=
  { nb_escapes := initEsc G
    label := initLabel G
    to_process := ((List.range G.length).map (fun v => (v, v, HENRI))).reverse }

/-- Propagation from a popped LOSING configuration: every unlabeled
predecessor becomes WINNING and is pushed. -/
def processL : List Config → St → St
  | [], s => s
  | c1 :: rest, s =>
    if s.label c1 = none then
      processL rest
        { s with label := setMap s.label c1 WINNING
                 to_process := c1 :: s.to_process }
    else
      processL rest s

/-- Propagation from a popped WINNING configuration: decrement each
predecessor's escape counter; on reaching zero while unlabeled, label it
LOSING and push it.  A missing counter key is a `KeyError`, hence `none`. -/
def processW : List Config → St → Option St
  | [], s => some s
  | c1 :: rest, s =>
    match s.nb_escapes c1 with
    | none => none
    | some e =>
      let s1 : St := { s with nb_escapes := setMap s.nb_escapes c1 (e - 1) }
      if e - 1 = 0 ∧ s1.label c1 = none then
        processW rest
          { s1 with label := setMap s1.label c1 LOOSING
                    to_process := c1 :: s1.to_process }
      else
        processW rest s1

/-- Body of one worklist iteration on the popped configuration: branch on its
label, a missing label key being a `KeyError`. -/
def step (G : Graph) (config : Config) (s : St) : Option St :=
  match s.label config with
  | none => none
  | some l =>
    if l = LOOSING then
      some (processL (move config G BACKWARD) s)
    else if l = WINNING then
      processW (move config G BACKWARD) s
    else
      some s

/-- The worklist loop, fuel-indexed; `pick` chooses which worklist element to
pop (it receives the head and tail of the nonempty worklist). -/
def loopSolve (G : Graph) (pick : Config → List Config → Config × List Config) :
    ℕ → St → Option St
  | 0, s => some s
  | fuel + 1, s =>
    match s.to_process with
    | [] => some s
    | c :: r =>
      match step G (pick c r).1 { s with to_process := (pick c r).2 } with
      | none => none
      | some s1 => loopSolve G pick fuel s1

/-- The pop policy of the source: `list.pop()` takes the most recent push. -/
def lifoPick (c : Config) (r : List Config) : Config × List Config := (c, r)

/-- A first-in-first-out pop policy (pops the oldest worklist entry). -/
def fifoPick (c : Config) (r : List Config) : Config × List Config :=
  ((c :: r).getLast (List.cons_ne_nil c r), (c :: r).dropLast)

/-- Safe-vertex extraction: `h` is kept unless some `k ≠ h` has
`(h, k, HENRI)` labeled LOSING. -/
def safeList (G : Graph) (label : Config → Option ℕ) : List ℕ :=
  (List.range G.length).filter (fun h =>
    (List.range G.length).all (fun k =>
      if k ≠ h ∧ label (h, k, HENRI) = some LOOSING then false else true))

/-- Run the worklist loop to its fixed point: `2 n ^ 2` pops always suffice
on a well-formed graph. -/
def solveState (G : Graph)
    (pick : Config → List Config → Config × List Config) : Option St :=
  loopSolve G pick (2 * G.length ^ 2) (initSt G)

/-- The whole solver for an arbitrary pop policy; fails on a dictionary
error or if the fuel bound did not drain the worklist. -/
def solveWith (G : Graph)
    (pick : Config → List Config → Config × List Config) :
    Option (List ℕ) :=
  match solveState G pick with
  | none => none
  | some s => if s.to_process = [] then some (safeList G s.label) else none

/-- The solver of the source (LIFO worklist). -/
def solve (G : Graph) : Option (List ℕ) := solveWith G lifoPick

/-- The FIFO-worklist variant of the solver. -/
def solveFIFO (G : Graph) : Option (List ℕ) := solveWith G fifoPick

/-- Forward out-degree of a configuration. -/
def outdeg (G : Graph) (c : Config) : ℕ := (move c G FORWARD).length

/-- Seed configurations of rule (1): evader caught, evader to move. -/
def isSeed (c : Config) : Prop := c.2.1 = c.1 ∧ c.2.2 = HENRI

instance (c : Config) : Decidable (isSeed c) := by
  unfold isSeed; infer_instance

/-- The configurations whose labels are forced by the three rules of the
game: rule (1) seeds, rule (3) existential wins, rule (2) universal losses.
This is the inductive (least-fixed-point) semantics the propagation
computes. -/
inductive Forced (G : Graph) : Config → ℕ → Prop where
  | seed : ∀ v, v < G.length → Forced G (v, v, HENRI) LOOSING
  | fwin : ∀ c c1, c ∈ configurations G → ¬ isSeed c →
      c1 ∈ move c G FORWARD → Forced G c1 LOOSING → Forced G c WINNING
  | flose : ∀ c, c ∈ configurations G → ¬ isSeed c →
      (∀ c1 ∈ move c G FORWARD, Forced G c1 WINNING) → Forced G c LOOSING

/-- Number of forward successors of `c` already confirmed WINNING and
popped from the worklist (the amount by which `c`'s escape counter has been
decremented). -/
def dcount (G : Graph) (s : St) (c : Config) : ℕ :=
  ((move c G FORWARD).filter (fun c1 =>
    decide (s.label c1 = some WINNING ∧ c1 ∉ s.to_process))).length

/-- Number of still-unlabeled configurations. -/
def unlabeledCount (G : Graph) (m : Config → Option ℕ) : ℕ :=
  ((configurations G).filter (fun c => decide (m c = none))).length

/-- Termination measure of the worklist loop: it decreases by exactly one at
every pop. -/
def measureW (G : Graph) (s : St) : ℕ :=
  unlabeledCount G s.label + s.to_process.length

instance (G : Graph) : Decidable (WF G) := by
  unfold WF; infer_instance

/-- Core state facts shared by the main loop invariant and the two
mid-propagation invariants. -/
structure Core (G : Graph) (s : St) : Prop where
  labSpace : ∀ c : Config, s.label c ≠ none → c ∈ configurations G
  labVal : ∀ c l, s.label c = some l → l = LOOSING ∨ l = WINNING
  seedLab : ∀ c ∈ configurations G, isSeed c → s.label c = some LOOSING
  wlNodup : s.to_process.Nodup
  wlLab : ∀ c ∈ s.to_process, s.label c ≠ none
  escNone : ∀ c : Config, c ∉ configurations G → s.nb_escapes c = none
  sound : ∀ c l, s.label c = some l → Forced G c l

/-- The invariant holding between worklist iterations. -/
structure Inv (G : Graph) (s : St) extends Core G s : Prop where
  escEq : ∀ c ∈ configurations G,
      s.nb_escapes c = some ((outdeg G c : ℤ) - (dcount G s c : ℤ))
  unlabPos : ∀ c ∈ configurations G, s.label c = none →
      dcount G s c < outdeg G c
  loseDone : ∀ q, s.label q = some LOOSING → q ∉ s.to_process →
      ∀ c1 ∈ move q G BACKWARD, s.label c1 ≠ none

/-- The invariant holding while `processL` runs for a popped LOSING
configuration `q`: everything of `Inv` except that `q`'s own predecessors
need not be labeled yet. -/
structure PL (G : Graph) (q : Config) (s : St) extends Core G s : Prop where
  escEq : ∀ c ∈ configurations G,
      s.nb_escapes c = some ((outdeg G c : ℤ) - (dcount G s c : ℤ))
  unlabPos : ∀ c ∈ configurations G, s.label c = none →
      dcount G s c < outdeg G c
  loseDoneExc : ∀ q1, q1 ≠ q → s.label q1 = some LOOSING → q1 ∉ s.to_process →
      ∀ c1 ∈ move q1 G BACKWARD, s.label c1 ≠ none

/-- The invariant holding while `processW` runs for a popped WINNING
configuration: the configurations in `R` still await their decrement, so
their counters carry a surplus of one. -/
structure PW (G : Graph) (R : List Config) (s : St) extends Core G s : Prop where
  escEqR : ∀ c ∈ configurations G,
      s.nb_escapes c =
        some ((outdeg G c : ℤ) - (dcount G s c : ℤ) +
          (if c ∈ R then 1 else 0))
  unlabPosR : ∀ c ∈ configurations G, s.label c = none → c ∉ R →
      dcount G s c < outdeg G c
  loseDone : ∀ q, s.label q = some LOOSING → q ∉ s.to_process →
      ∀ c1 ∈ move q G BACKWARD, s.label c1 ≠ none

/-- Facts relating an earlier solver state to any later one: labels are
write-once, worklist members are labeled configurations, a popped
configuration never re-enters the worklist, and new worklist entries were
unlabeled before. -/
structure Mono (s s1 : St) : Prop where
  labMono : ∀ c l, s.label c = some l → s1.label c = some l
  stayOut : ∀ c : Config, s.label c ≠ none → c ∉ s.to_process →
      c ∉ s1.to_process
  newUnlab : ∀ c : Config, c ∈ s1.to_process →
      c ∈ s.to_process ∨ s.label c = none

/-- A pop policy is admissible when it returns some element of the worklist
together with the remaining ones. -/
def GoodPick (pick : Config → List Config → Config × List Config) : Prop :=
  ∀ c r, List.Perm ((pick c r).1 :: (pick c r).2) (c :: r)

theorem mem_configurations {G : Graph} {c : Config} :
    c ∈ configurations G ↔
      c.1 < G.length ∧ c.2.1 < G.length ∧
        (c.2.2 = HENRI ∨ c.2.2 = KILLER) := by
  obtain ⟨h, k, t⟩ := c
  simp only [configurations, List.mem_flatMap, List.mem_range, List.mem_cons,
    List.not_mem_nil, or_false]
  constructor
  · rintro ⟨h1, hh1, k1, hk1, hc | hc⟩ <;>
      (injection hc with e1 e2; injection e2 with e2 e3; subst e1; subst e2;
        subst e3; simp_all)
  · rintro ⟨hh, hk, ht | ht⟩ <;> subst ht
    · exact ⟨h, hh, k, hk, Or.inl rfl⟩
    · exact ⟨h, hh, k, hk, Or.inr rfl⟩

theorem configurations_nodup (G : Graph) : (configurations G).Nodup := by
  unfold configurations
  rw [List.nodup_flatMap]
  refine ⟨fun h _ => ?_, ?_⟩
  · rw [List.nodup_flatMap]
    refine ⟨fun k _ => ?_, ?_⟩
    · simp [HENRI, KILLER]
    · refine (List.pairwise_lt_range G.length).imp ?_
      intro a b hab c hca hcb
      simp only [List.mem_cons, List.not_mem_nil, or_false] at hca hcb
      rcases hca with rfl | rfl <;> rcases hcb with h2 | h2 <;>
        (injection h2 with e1 e2; injection e2 with e2 e3; omega)
  · refine (List.pairwise_lt_range G.length).imp ?_
    intro a b hab c hca hcb
    simp only [List.mem_flatMap, List.mem_range, List.mem_cons,
      List.not_mem_nil, or_false] at hca hcb
    obtain ⟨k1, -, hc1⟩ := hca
    obtain ⟨k2, -, hc2⟩ := hcb
    rcases hc1 with rfl | rfl <;> rcases hc2 with h2 | h2 <;>
      (injection h2 with e1 e2; omega)

theorem nbrs_out {G : Graph} {u : ℕ} (hu : G.length ≤ u) : nbrs G u = [] :=
  List.getD_eq_default G [] hu

theorem nbrs_lt {G : Graph} (hWF : WF G) {a b : ℕ} (hm : a ∈ nbrs G b) :
    a < G.length ∧ b < G.length := by
  by_cases hb : b < G.length
  · exact ⟨((hWF.2 b hb).2.2 a hm).1, hb⟩
  · rw [nbrs_out (le_of_not_lt hb)] at hm
    cases hm

theorem nbrs_symm {G : Graph} (hWF : WF G) {a b : ℕ} :
    a ∈ nbrs G b ↔ b ∈ nbrs G a := by
  constructor <;> intro hm
  · exact ((hWF.2 b (nbrs_lt hWF hm).2).2.2 a hm).2
  · exact ((hWF.2 a (nbrs_lt hWF hm).2).2.2 b hm).2

theorem nbrs_nodup {G : Graph} (hWF : WF G) (u : ℕ) : (nbrs G u).Nodup := by
  by_cases hu : u < G.length
  · exact (hWF.2 u hu).1
  · rw [nbrs_out (le_of_not_lt hu)]
    exact List.nodup_nil

theorem mem_move {G : Graph} {h k turn d : ℕ} {c1 : Config} :
    c1 ∈ move (h, k, turn) G d ↔
      (turn = d ∧ ∃ h1 ∈ nbrs G h, c1 = (h1, k, 1 - turn)) ∨
      (turn ≠ d ∧ ∃ k1 ∈ nbrs G k, c1 = (h, k1, 1 - turn)) := by
  by_cases ht : turn = d <;> simp [move, ht, eq_comm]

theorem turn_of_mem_move {G : Graph} {d : ℕ} {c c1 : Config}
    (hm : c1 ∈ move c G d) : c1.2.2 = HENRI ∨ c1.2.2 = KILLER := by
  obtain ⟨h, k, turn⟩ := c
  rcases mem_move.mp hm with ⟨-, x, -, rfl⟩ | ⟨-, x, -, rfl⟩ <;>
    (cases turn <;> simp [HENRI, KILLER])

theorem mem_move_fwd_of_back {G : Graph} (hWF : WF G) {c c1 : Config}
    (ht : c.2.2 = HENRI ∨ c.2.2 = KILLER)
    (hm : c1 ∈ move c G BACKWARD) : c ∈ move c1 G FORWARD := by
  obtain ⟨h, k, t⟩ := c
  simp only at ht
  rcases ht with rfl | rfl
  · rcases mem_move.mp hm with ⟨e, -⟩ | ⟨-, x, hx, rfl⟩
    · exact absurd e (by decide)
    · exact mem_move.mpr (Or.inr ⟨by decide, k, (nbrs_symm hWF).mp hx, rfl⟩)
  · rcases mem_move.mp hm with ⟨-, x, hx, rfl⟩ | ⟨e, -⟩
    · exact mem_move.mpr (Or.inl ⟨by decide, h, (nbrs_symm hWF).mp hx, rfl⟩)
    · exact absurd rfl e

theorem mem_move_back_of_fwd {G : Graph} (hWF : WF G) {c c1 : Config}
    (ht1 : c1.2.2 = HENRI ∨ c1.2.2 = KILLER)
    (hm : c ∈ move c1 G FORWARD) : c1 ∈ move c G BACKWARD := by
  obtain ⟨h1, k1, t1⟩ := c1
  simp only at ht1
  rcases ht1 with rfl | rfl
  · rcases mem_move.mp hm with ⟨-, x, hx, rfl⟩ | ⟨e, -⟩
    · exact mem_move.mpr (Or.inl ⟨by decide, h1, (nbrs_symm hWF).mp hx, rfl⟩)
    · exact absurd rfl e
  · rcases mem_move.mp hm with ⟨e, -⟩ | ⟨-, x, hx, rfl⟩
    · exact absurd e (by decide)
    · exact mem_move.mpr (Or.inr ⟨by decide, k1, (nbrs_symm hWF).mp hx, rfl⟩)

/-- The symmetry at the heart of the backward-direction reuse: for turn
values in `{HENRI, KILLER}`, being a backward-move of `c` is the same as
having `c` among one's forward moves. -/
theorem mem_move_backward_iff {G : Graph} (hWF : WF G) {c c1 : Config}
    (ht : c.2.2 = HENRI ∨ c.2.2 = KILLER)
    (ht1 : c1.2.2 = HENRI ∨ c1.2.2 = KILLER) :
    c1 ∈ move c G BACKWARD ↔ c ∈ move c1 G FORWARD :=
  ⟨mem_move_fwd_of_back hWF ht, mem_move_back_of_fwd hWF ht1⟩

theorem mem_configurations_move {G : Graph} (hWF : WF G) {c c1 : Config}
    {d : ℕ} (hc : c ∈ configurations G) (hm : c1 ∈ move c G d) :
    c1 ∈ configurations G := by
  obtain ⟨h, k, t⟩ := c
  rw [mem_configurations] at hc
  obtain ⟨hh, hk, -⟩ := hc
  rcases mem_move.mp hm with ⟨-, x, hx, rfl⟩ | ⟨-, x, hx, rfl⟩
  · refine mem_configurations.mpr ⟨(nbrs_lt hWF hx).1, hk, ?_⟩
    cases t <;> simp [HENRI, KILLER]
  · refine mem_configurations.mpr ⟨hh, (nbrs_lt hWF hx).1, ?_⟩
    cases t <;> simp [HENRI, KILLER]

theorem move_nodup {G : Graph} (hWF : WF G) (c : Config) (d : ℕ) :
    (move c G d).Nodup := by
  obtain ⟨h, k, t⟩ := c
  by_cases ht : t = d
  · rw [show move (h, k, t) G d = (nbrs G h).map (fun h1 => (h1, k, 1 - t))
      from by simp [move, ht]]
    exact (nbrs_nodup hWF h).map (fun a b e => congrArg Prod.fst e)
  · rw [show move (h, k, t) G d = (nbrs G k).map (fun k1 => (h, k1, 1 - t))
      from by simp [move, ht]]
    exact (nbrs_nodup hWF k).map
      (fun a b e => congrArg (fun p : Config => p.2.1) e)

theorem outdeg_pos {G : Graph} (hWF : WF G) {c : Config}
    (hc : c ∈ configurations G) : 0 < outdeg G c := by
  obtain ⟨h, k, t⟩ := c
  rw [mem_configurations] at hc
  obtain ⟨hh, hk, -⟩ := hc
  rw [outdeg, List.length_pos]
  intro he
  by_cases ht : t = FORWARD
  · have hm : ((h : ℕ), k, 1 - t) ∈ move (h, k, t) G FORWARD :=
      mem_move.mpr (Or.inl ⟨ht, h, (hWF.2 h hh).2.1, rfl⟩)
    rw [he] at hm
    cases hm
  · have hm : ((h : ℕ), k, 1 - t) ∈ move (h, k, t) G FORWARD :=
      mem_move.mpr (Or.inr ⟨ht, k, (hWF.2 k hk).2.1, rfl⟩)
    rw [he] at hm
    cases hm

theorem dcount_le_outdeg (G : Graph) (s : St) (c : Config) :
    dcount G s c ≤ outdeg G c :=
  List.length_filter_le _ _

theorem dcount_eq_outdeg {G : Graph} {s : St} {c : Config}
    (h : dcount G s c = outdeg G c) :
    ∀ c1 ∈ move c G FORWARD,
      s.label c1 = some WINNING ∧ c1 ∉ s.to_process := by
  have heq := List.Sublist.eq_of_length
    (List.filter_sublist (l := move c G FORWARD)
      (p := fun c1 => decide (s.label c1 = some WINNING ∧ c1 ∉ s.to_process))) h
  intro c1 hc1
  rw [← heq] at hc1
  exact of_decide_eq_true (List.mem_filter.mp hc1).2

theorem length_filter_flip {α : Type} {l : List α} {p q : α → Bool} {a : α}
    (hnd : l.Nodup) (ha : a ∈ l) (hpa : p a = false) (hqa : q a = true)
    (hagree : ∀ b ∈ l, b ≠ a → p b = q b) :
    (l.filter q).length = (l.filter p).length + 1 := by
  induction l with
  | nil => cases ha
  | cons x xs ih =>
    obtain ⟨hx, hnds⟩ := List.nodup_cons.mp hnd
    rcases List.mem_cons.mp ha with rfl | hax
    · rw [List.filter_cons_of_pos hqa,
        List.filter_cons_of_neg (by rw [hpa]; exact Bool.false_ne_true)]
      have heq : xs.filter p = xs.filter q :=
        List.filter_congr (fun b hb =>
          hagree b (List.mem_cons_of_mem _ hb) (fun e => hx (e ▸ hb)))
      simp [heq]
    · have hxa : x ≠ a := fun e => hx (e ▸ hax)
      have hpq : p x = q x := hagree x (List.mem_cons_self x xs) hxa
      have hrec := ih hnds hax
        (fun b hb hba => hagree b (List.mem_cons_of_mem _ hb) hba)
      by_cases hqx : q x = true
      · rw [List.filter_cons_of_pos hqx,
          List.filter_cons_of_pos (hpq.trans hqx)]
        simp [hrec]
      · rw [List.filter_cons_of_neg hqx,
          List.filter_cons_of_neg (by rw [hpq]; exact hqx)]
        exact hrec

theorem dcount_congr {G : Graph} {s s1 : St} {c : Config}
    (h : ∀ c1 ∈ move c G FORWARD,
      ((s.label c1 = some WINNING ∧ c1 ∉ s.to_process) ↔
        (s1.label c1 = some WINNING ∧ c1 ∉ s1.to_process))) :
    dcount G s c = dcount G s1 c := by
  unfold dcount
  exact congrArg List.length
    (List.filter_congr (fun b hb => decide_eq_decide.mpr (h b hb)))

theorem setMap_self {α : Type} (m : Config → Option α) (c : Config) (v : α) :
    setMap m c v c = some v := by
  simp [setMap]

theorem setMap_other {α : Type} (m : Config → Option α) {c c1 : Config}
    (v : α) (h : c1 ≠ c) : setMap m c v c1 = m c1 := by
  simp [setMap, h]

theorem unlabeledCount_set {G : Graph} {m : Config → Option ℕ} {c0 : Config}
    (hc0 : c0 ∈ configurations G) (hm : m c0 = none) (v : ℕ) :
    unlabeledCount G m = unlabeledCount G (setMap m c0 v) + 1 := by
  unfold unlabeledCount
  refine length_filter_flip (configurations_nodup G) hc0 ?_ ?_ ?_
  · simp [setMap]
  · simp [hm]
  · intro b hb hbq
    simp [setMap, hbq]

theorem Forced_val {G : Graph} {c : Config} {a : ℕ} (h : Forced G c a) :
    a = LOOSING ∨ a = WINNING := by
  induction h with
  | seed v hv => exact Or.inl rfl
  | fwin c c1 hc hns hm hF ih => exact Or.inr rfl
  | flose c hc hns hall ih => exact Or.inl rfl

theorem Forced_seed_lose {G : Graph} {c : Config} {a : ℕ}
    (h : Forced G c a) (hs : isSeed c) : a = LOOSING := by
  induction h with
  | seed v hv => rfl
  | fwin c c1 hc hns hm hF ih => exact absurd hs hns
  | flose c hc hns hall ih => rfl

theorem Forced_win_exists {G : Graph} {c : Config} {a : ℕ}
    (h : Forced G c a) (ha : a = WINNING) :
    ∃ c1 ∈ move c G FORWARD, Forced G c1 LOOSING := by
  induction h with
  | seed v hv => exact absurd ha (by decide)
  | fwin c c1 hc hns hm hF ih => exact ⟨c1, hm, hF⟩
  | flose c hc hns hall ih => exact absurd ha (by decide)

theorem Forced_lose_char {G : Graph} {c : Config} {a : ℕ}
    (h : Forced G c a) (ha : a = LOOSING) :
    isSeed c ∨ (¬ isSeed c ∧ ∀ c1 ∈ move c G FORWARD, Forced G c1 WINNING) := by
  induction h with
  | seed v hv => exact Or.inl ⟨rfl, rfl⟩
  | fwin c c1 hc hns hm hF ih => exact absurd ha (by decide)
  | flose c hc hns hall ih => exact Or.inr ⟨hns, hall⟩

theorem Forced_unique {G : Graph} {c : Config} {a : ℕ}
    (ha : Forced G c a) : ∀ b, Forced G c b → a = b := by
  induction ha with
  | seed v hv =>
    intro b hb
    exact (Forced_seed_lose hb ⟨rfl, rfl⟩).symm
  | fwin c c1 hc hns hm hF ih =>
    intro b hb
    rcases Forced_val hb with rfl | rfl
    · rcases Forced_lose_char hb rfl with hs | ⟨-, hall⟩
      · exact absurd hs hns
      · exact absurd (ih WINNING (hall c1 hm)) (by decide)
    · rfl
  | flose c hc hns hall ih =>
    intro b hb
    rcases Forced_val hb with rfl | rfl
    · rfl
    · obtain ⟨c1, hm, hF⟩ := Forced_win_exists hb rfl
      exact absurd (ih c1 hm LOOSING hF) (by decide)

theorem monoRefl (s : St) : Mono s s :=
  ⟨fun _ _ h => h, fun _ _ h => h, fun _ h => Or.inl h⟩

theorem monoTrans {s1 s2 s3 : St} (h12 : Mono s1 s2) (h23 : Mono s2 s3) :
    Mono s1 s3 := by
  refine ⟨fun c l h => h23.labMono c l (h12.labMono c l h), ?_, ?_⟩
  · intro c hl hout
    have h2 := h12.stayOut c hl hout
    have hl2 : s2.label c ≠ none := by
      cases he : s1.label c with
      | none => exact absurd he hl
      | some v => simp [h12.labMono c v he]
    exact h23.stayOut c hl2 h2
  · intro c hc
    rcases h23.newUnlab c hc with h2 | h2
    · exact h12.newUnlab c h2
    · cases he : s1.label c with
      | none => exact Or.inr rfl
      | some v =>
        have h3 := h12.labMono c v he
        rw [h3] at h2
        cases h2

theorem initSt_label (G : Graph) : (initSt G).label = initLabel G := rfl

theorem initSt_esc (G : Graph) : (initSt G).nb_escapes = initEsc G := rfl

theorem initLabel_some {G : Graph} {c : Config} (h : initLabel G c ≠ none) :
    c.1 < G.length ∧ c.2.1 = c.1 ∧ c.2.2 = HENRI ∧
      initLabel G c = some LOOSING := by
  unfold initLabel at *
  split_ifs at h with hc
  · exact ⟨hc.1, hc.2.1, hc.2.2, by simp [initLabel, hc]⟩
  · exact absurd rfl h

theorem initLabel_seed {G : Graph} {c : Config}
    (h1 : c.1 < G.length) (h2 : c.2.1 = c.1) (h3 : c.2.2 = HENRI) :
    initLabel G c = some LOOSING := by
  unfold initLabel
  rw [if_pos ⟨h1, h2, h3⟩]

theorem dcount_init (G : Graph) (c : Config) :
    dcount G (initSt G) c = 0 := by
  unfold dcount
  rw [List.length_eq_zero, List.filter_eq_nil_iff]
  intro c1 hc1
  simp only [decide_eq_true_eq, not_and]
  intro hl
  exfalso
  have hl2 : initLabel G c1 = some WINNING := hl
  have h2 := initLabel_some (G := G) (c := c1) (by rw [hl2]; simp)
  rw [h2.2.2.2] at hl2
  injection hl2 with e
  cases e

theorem mem_init_to_process {G : Graph} {c : Config} :
    c ∈ (initSt G).to_process ↔
      c.1 < G.length ∧ c.2.1 = c.1 ∧ c.2.2 = HENRI := by
  show c ∈ ((List.range G.length).map (fun v => (v, v, HENRI))).reverse ↔ _
  rw [List.mem_reverse, List.mem_map]
  constructor
  · rintro ⟨v, hv, rfl⟩
    exact ⟨List.mem_range.mp hv, rfl, rfl⟩
  · rintro ⟨h1, h2, h3⟩
    refine ⟨c.1, List.mem_range.mpr h1, ?_⟩
    obtain ⟨h, k, t⟩ := c
    simp only at h2 h3 ⊢
    rw [h2, h3]

theorem inv_init {G : Graph} (hWF : WF G) : Inv G (initSt G) := by
  refine ⟨⟨?_, ?_, ?_, ?_, ?_, ?_, ?_⟩, ?_, ?_, ?_⟩
  · intro c hc
    have hc2 : initLabel G c ≠ none := hc
    obtain ⟨h1, h2, h3, -⟩ := initLabel_some hc2
    exact mem_configurations.mpr ⟨h1, h2 ▸ h1, Or.inl h3⟩
  · intro c l hc
    have hc2 : initLabel G c = some l := hc
    obtain ⟨-, -, -, h4⟩ :=
      initLabel_some (G := G) (c := c) (by rw [hc2]; simp)
    rw [hc2] at h4
    injection h4 with e
    exact Or.inl e
  · intro c hc hs
    show initLabel G c = some LOOSING
    exact initLabel_seed (mem_configurations.mp hc).1 hs.1 hs.2
  · show (((List.range G.length).map (fun v => (v, v, HENRI))).reverse).Nodup
    rw [List.nodup_reverse]
    exact (List.nodup_range G.length).map (fun a b e => congrArg Prod.fst e)
  · intro c hc
    obtain ⟨h1, h2, h3⟩ := mem_init_to_process.mp hc
    show initLabel G c ≠ none
    rw [initLabel_seed h1 h2 h3]
    simp
  · intro c hc
    show initEsc G c = none
    unfold initEsc
    rw [if_neg hc]
  · intro c l hc
    have hc2 : initLabel G c = some l := hc
    obtain ⟨h1, h2, h3, h4⟩ :=
      initLabel_some (G := G) (c := c) (by rw [hc2]; simp)
    rw [hc2] at h4
    injection h4 with e
    have hseed : Forced G (c.1, c.1, HENRI) LOOSING := Forced.seed c.1 h1
    have hc3 : c = (c.1, c.1, HENRI) := by
      obtain ⟨h, k, t⟩ := c
      simp only at h2 h3 ⊢
      rw [h2, h3]
    rw [← hc3] at hseed
    rw [e]
    exact hseed
  · intro c hc
    show initEsc G c = some _
    unfold initEsc
    rw [if_pos hc, dcount_init]
    simp [outdeg]
  · intro c hc hl
    rw [dcount_init]
    exact outdeg_pos hWF hc
  · intro q hq hqp
    exfalso
    have hq2 : initLabel G q = some LOOSING := hq
    obtain ⟨h1, h2, h3, -⟩ :=
      initLabel_some (G := G) (c := q) (by rw [hq2]; simp)
    exact hqp (mem_init_to_process.mpr ⟨h1, h2, h3⟩)

theorem setMap_ne_none {α : Type} {m : Config → Option α} {c c0 : Config}
    {v : α} (h : m c ≠ none) : setMap m c0 v c ≠ none := by
  by_cases e : c = c0
  · subst e
    rw [setMap_self]
    simp
  · rw [setMap_other _ _ e]
    exact h

theorem setMap_none_of {α : Type} {m : Config → Option α} {c c0 : Config}
    {v : α} (h : setMap m c0 v c = none) : m c = none ∧ c ≠ c0 := by
  by_cases e : c = c0
  · subst e
    rw [setMap_self] at h
    cases h
  · rw [setMap_other _ _ e] at h
    exact ⟨h, e⟩

theorem dcount_label_push {G : Graph} {s : St} {c1 : Config} {v : ℕ}
    (hl : s.label c1 = none) (c : Config) :
    dcount G
      { s with label := setMap s.label c1 v,
               to_process := c1 :: s.to_process } c = dcount G s c := by
  refine dcount_congr (fun b hb => ?_)
  show (setMap s.label c1 v b = some WINNING ∧ b ∉ c1 :: s.to_process) ↔ _
  by_cases hbc : b = c1
  · subst hbc
    constructor
    · rintro ⟨-, hout⟩
      exact absurd (List.mem_cons_self b _) hout
    · rintro ⟨hw, -⟩
      rw [hl] at hw
      cases hw
  · rw [setMap_other _ _ hbc]
    constructor
    · rintro ⟨hw, hout⟩
      exact ⟨hw, fun hmem => hout (List.mem_cons_of_mem _ hmem)⟩
    · rintro ⟨hw, hout⟩
      refine ⟨hw, ?_⟩
      intro hmem
      rcases List.mem_cons.mp hmem with e | hmem2
      · exact hbc e
      · exact hout hmem2

theorem PL_push {G : Graph} {q : Config} (hWF : WF G)
    (hFq : Forced G q LOOSING) {s : St} {c1 : Config} (hPL : PL G q s)
    (hc1 : c1 ∈ configurations G) (hq1 : q ∈ move c1 G FORWARD)
    (hl : s.label c1 = none) :
    PL G q
      { s with label := setMap s.label c1 WINNING,
               to_process := c1 :: s.to_process } := by
  have hns : ¬ isSeed c1 := by
    intro hs
    rw [hPL.seedLab c1 hc1 hs] at hl
    cases hl
  have hout1 : c1 ∉ s.to_process := by
    intro hmem
    exact hPL.wlLab c1 hmem hl
  refine ⟨⟨?_, ?_, ?_, ?_, ?_, ?_, ?_⟩, ?_, ?_, ?_⟩
  · intro c hc
    have hc2 : setMap s.label c1 WINNING c ≠ none := hc
    by_cases e : c = c1
    · subst e; exact hc1
    · rw [setMap_other _ _ e] at hc2
      exact hPL.labSpace c hc2
  · intro c l hc
    have hc2 : setMap s.label c1 WINNING c = some l := hc
    by_cases e : c = c1
    · subst e
      rw [setMap_self] at hc2
      injection hc2 with e2
      exact Or.inr e2.symm
    · rw [setMap_other _ _ e] at hc2
      exact hPL.labVal c l hc2
  · intro c hc hs
    have e : c ≠ c1 := by
      intro e
      exact hns (e ▸ hs)
    show setMap s.label c1 WINNING c = some LOOSING
    rw [setMap_other _ _ e]
    exact hPL.seedLab c hc hs
  · exact List.nodup_cons.mpr ⟨hout1, hPL.wlNodup⟩
  · intro c hc
    rcases List.mem_cons.mp hc with rfl | hc2
    · show setMap s.label c WINNING c ≠ none
      rw [setMap_self]
      simp
    · exact setMap_ne_none (hPL.wlLab c hc2)
  · intro c hc
    exact hPL.escNone c hc
  · intro c l hc
    have hc2 : setMap s.label c1 WINNING c = some l := hc
    by_cases e : c = c1
    · subst e
      rw [setMap_self] at hc2
      injection hc2 with e2
      rw [← e2]
      exact Forced.fwin c q hc1 hns hq1 hFq
    · rw [setMap_other _ _ e] at hc2
      exact hPL.sound c l hc2
  · intro c hc
    rw [dcount_label_push hl c]
    exact hPL.escEq c hc
  · intro c hc hcl
    have hcl1 : setMap s.label c1 WINNING c = none := hcl
    obtain ⟨hcl2, -⟩ := setMap_none_of hcl1
    rw [dcount_label_push hl c]
    exact hPL.unlabPos c hc hcl2
  · intro q1 hq1q hq1l hq1out
    have hq1l2 : setMap s.label c1 WINNING q1 = some LOOSING := hq1l
    have e : q1 ≠ c1 := by
      intro e
      rw [e, setMap_self] at hq1l2
      injection hq1l2 with e2
      cases e2
    rw [setMap_other _ _ e] at hq1l2
    have hq1out2 : q1 ∉ s.to_process := fun hmem =>
      hq1out (List.mem_cons_of_mem _ hmem)
    intro c2 hc2
    exact setMap_ne_none (hPL.loseDoneExc q1 hq1q hq1l2 hq1out2 c2 hc2)

theorem processL_spec {G : Graph} (hWF : WF G) {q : Config}
    (hFq : Forced G q LOOSING) :
    ∀ (L : List Config) (s : St), PL G q s →
      (∀ c1 ∈ L, c1 ∈ configurations G) →
      (∀ c1 ∈ L, q ∈ move c1 G FORWARD) →
      PL G q (processL L s) ∧
        (∀ c1 ∈ L, (processL L s).label c1 ≠ none) ∧
        Mono s (processL L s) ∧
        (processL L s).nb_escapes = s.nb_escapes ∧
        (∀ c, dcount G (processL L s) c = dcount G s c) ∧
        measureW G (processL L s) = measureW G s ∧
        (∀ c ∈ s.to_process, c ∈ (processL L s).to_process) ∧
        (∀ c : Config, s.label c = none →
          (processL L s).label c = none ∨
            (processL L s).label c = some WINNING) := by
  intro L
  induction L with
  | nil =>
    intro s hPL hLs hLq
    refine ⟨hPL, by simp, monoRefl s, rfl, fun c => rfl, rfl, fun c h => h,
      fun c h => Or.inl h⟩
  | cons c1 rest ih =>
    intro s hPL hLs hLq
    by_cases hl : s.label c1 = none
    · have heq : processL (c1 :: rest) s =
        processL rest
          { s with label := setMap s.label c1 WINNING,
                   to_process := c1 :: s.to_process } := by
        simp only [processL, if_pos hl]
      rw [heq]
      have hPL2 := PL_push hWF hFq hPL (hLs c1 (List.mem_cons_self c1 rest))
        (hLq c1 (List.mem_cons_self c1 rest)) hl
      obtain ⟨ha1, ha2, ha3, ha4, ha5, ha6, ha7, ha8⟩ := ih
        { s with label := setMap s.label c1 WINNING,
                 to_process := c1 :: s.to_process } hPL2
        (fun c hc => hLs c (List.mem_cons_of_mem _ hc))
        (fun c hc => hLq c (List.mem_cons_of_mem _ hc))
      have hmono2 : Mono s
          { s with label := setMap s.label c1 WINNING,
                   to_process := c1 :: s.to_process } := by
        refine ⟨?_, ?_, ?_⟩
        · intro c l h
          have e : c ≠ c1 := by
            intro e
            rw [e, hl] at h
            cases h
          show setMap s.label c1 WINNING c = some l
          rw [setMap_other _ _ e]
          exact h
        · intro c hlab hout
          show c ∉ c1 :: s.to_process
          intro hmem
          rcases List.mem_cons.mp hmem with rfl | hmem2
          · exact hlab hl
          · exact hout hmem2
        · intro c hc
          rcases List.mem_cons.mp hc with rfl | hmem2
          · exact Or.inr hl
          · exact Or.inl hmem2
      refine ⟨ha1, ?_, monoTrans hmono2 ha3, ha4, ?_, ?_, ?_, ?_⟩
      · intro c hc
        rcases List.mem_cons.mp hc with rfl | hc2
        · have h2 : setMap s.label c WINNING c = some WINNING := setMap_self _ _ _
          have h3 := ha3.labMono c WINNING h2
          rw [h3]
          simp
        · exact ha2 c hc2
      · intro c
        rw [ha5 c, dcount_label_push hl c]
      · rw [ha6]
        have hU := unlabeledCount_set (G := G)
          (hLs c1 (List.mem_cons_self c1 rest)) hl WINNING
        show unlabeledCount G (setMap s.label c1 WINNING) +
          (c1 :: s.to_process).length = measureW G s
        rw [List.length_cons]
        unfold measureW
        omega
      · intro c hc
        exact ha7 c (List.mem_cons_of_mem _ hc)
      · intro c hc
        by_cases e : c = c1
        · subst e
          have h2 : setMap s.label c WINNING c = some WINNING := setMap_self _ _ _
          exact Or.inr (ha3.labMono c WINNING h2)
        · have h2 : setMap s.label c1 WINNING c = none := by
            rw [setMap_other _ _ e]
            exact hc
          exact ha8 c h2
    · have heq : processL (c1 :: rest) s = processL rest s := by
        simp only [processL, if_neg hl]
      rw [heq]
      obtain ⟨ha1, ha2, ha3, ha4, ha5, ha6, ha7, ha8⟩ := ih s hPL
        (fun c hc => hLs c (List.mem_cons_of_mem _ hc))
        (fun c hc => hLq c (List.mem_cons_of_mem _ hc))
      refine ⟨ha1, ?_, ha3, ha4, ha5, ha6, ha7, ha8⟩
      intro c hc
      rcases List.mem_cons.mp hc with rfl | hc2
      · cases he : s.label c with
        | none => exact absurd he hl
        | some v =>
          rw [ha3.labMono c v he]
          simp
      · exact ha2 c hc2

theorem dcount_label_push2 {G : Graph} {s s2 : St} {c1 : Config} {v : ℕ}
    (hla : s2.label = setMap s.label c1 v)
    (hto : s2.to_process = c1 :: s.to_process)
    (hl : s.label c1 = none) (c : Config) :
    dcount G s2 c = dcount G s c := by
  refine dcount_congr (fun b hb => ?_)
  rw [hla, hto]
  by_cases hbc : b = c1
  · subst hbc
    constructor
    · rintro ⟨-, hout⟩
      exact absurd (List.mem_cons_self b _) hout
    · rintro ⟨hw, -⟩
      rw [hl] at hw
      cases hw
  · rw [setMap_other _ _ hbc]
    constructor
    · rintro ⟨hw, hout⟩
      exact ⟨hw, fun hmem => hout (List.mem_cons_of_mem _ hmem)⟩
    · rintro ⟨hw, hout⟩
      refine ⟨hw, ?_⟩
      intro hmem
      rcases List.mem_cons.mp hmem with e | hmem2
      · exact hbc e
      · exact hout hmem2

theorem ite_mem_cons {c c1 : Config} {R1 : List Config} (e : c ≠ c1) :
    (if c ∈ c1 :: R1 then (1 : ℤ) else 0) = (if c ∈ R1 then 1 else 0) := by
  by_cases hm : c ∈ R1
  · rw [if_pos hm, if_pos (List.mem_cons_of_mem _ hm)]
  · rw [if_neg hm, if_neg (fun hc => ?_)]
    rcases List.mem_cons.mp hc with e2 | hm2
    · exact e e2
    · exact hm hm2

theorem PW_push {G : Graph} {R1 : List Config} {s : St} {c1 : Config} {w : ℤ}
    (hPW : PW G (c1 :: R1) s) (hc1s : c1 ∈ configurations G)
    (hnotin : c1 ∉ R1) (hl : s.label c1 = none)
    (hFc1 : Forced G c1 LOOSING)
    (hw : w = (outdeg G c1 : ℤ) - (dcount G s c1 : ℤ)) :
    PW G R1
      { s with nb_escapes := setMap s.nb_escapes c1 w,
               label := setMap s.label c1 LOOSING,
               to_process := c1 :: s.to_process } := by
  have hout1 : c1 ∉ s.to_process := by
    intro hmem
    exact hPW.wlLab c1 hmem hl
  have hdc : ∀ c, dcount G
      ({ s with nb_escapes := setMap s.nb_escapes c1 w,
                label := setMap s.label c1 LOOSING,
                to_process := c1 :: s.to_process } : St) c = dcount G s c :=
    fun c => dcount_label_push2 rfl rfl hl c
  refine ⟨⟨?_, ?_, ?_, ?_, ?_, ?_, ?_⟩, ?_, ?_, ?_⟩
  · intro c hc
    have hc2 : setMap s.label c1 LOOSING c ≠ none := hc
    by_cases e : c = c1
    · subst e; exact hc1s
    · rw [setMap_other _ _ e] at hc2
      exact hPW.labSpace c hc2
  · intro c l hc
    have hc2 : setMap s.label c1 LOOSING c = some l := hc
    by_cases e : c = c1
    · subst e
      rw [setMap_self] at hc2
      injection hc2 with e2
      exact Or.inl e2.symm
    · rw [setMap_other _ _ e] at hc2
      exact hPW.labVal c l hc2
  · intro c hc hs
    have e : c ≠ c1 := by
      intro e
      have hsl := hPW.seedLab c hc hs
      rw [e, hl] at hsl
      cases hsl
    show setMap s.label c1 LOOSING c = some LOOSING
    rw [setMap_other _ _ e]
    exact hPW.seedLab c hc hs
  · exact List.nodup_cons.mpr ⟨hout1, hPW.wlNodup⟩
  · intro c hc
    rcases List.mem_cons.mp hc with rfl | hc2
    · show setMap s.label c LOOSING c ≠ none
      rw [setMap_self]
      simp
    · exact setMap_ne_none (hPW.wlLab c hc2)
  · intro c hc
    have e : c ≠ c1 := fun e => hc (e ▸ hc1s)
    show setMap s.nb_escapes c1 w c = none
    rw [setMap_other _ _ e]
    exact hPW.escNone c hc
  · intro c l hc
    have hc2 : setMap s.label c1 LOOSING c = some l := hc
    by_cases e : c = c1
    · subst e
      rw [setMap_self] at hc2
      injection hc2 with e2
      rw [← e2]
      exact hFc1
    · rw [setMap_other _ _ e] at hc2
      exact hPW.sound c l hc2
  · intro c hc
    rw [hdc c]
    by_cases e : c = c1
    · subst e
      show setMap s.nb_escapes c w c = some _
      rw [setMap_self, if_neg hnotin, hw]
      simp
    · show setMap s.nb_escapes c1 w c = some _
      rw [setMap_other _ _ e]
      have h2 := hPW.escEqR c hc
      rw [h2, ite_mem_cons e]
  · intro c hc hcl
    have hcl1 : setMap s.label c1 LOOSING c = none := hcl
    obtain ⟨hcl2, e⟩ := setMap_none_of hcl1
    intro hcr
    rw [hdc c]
    refine hPW.unlabPosR c hc hcl2 (fun hmem => ?_)
    rcases List.mem_cons.mp hmem with e2 | hm2
    · exact e e2
    · exact hcr hm2
  · intro q1 hq1l hq1out c2 hc2
    have hq1l2 : setMap s.label c1 LOOSING q1 = some LOOSING := hq1l
    have e : q1 ≠ c1 := by
      intro e
      exact hq1out (e ▸ List.mem_cons_self c1 s.to_process)
    rw [setMap_other _ _ e] at hq1l2
    have hq1out2 : q1 ∉ s.to_process := fun hmem =>
      hq1out (List.mem_cons_of_mem _ hmem)
    exact setMap_ne_none (hPW.loseDone q1 hq1l2 hq1out2 c2 hc2)

theorem PW_dec {G : Graph} {R1 : List Config} {s : St} {c1 : Config} {w : ℤ}
    (hPW : PW G (c1 :: R1) s) (hc1s : c1 ∈ configurations G)
    (hnotin : c1 ∉ R1)
    (hne : ¬ (w = 0 ∧ s.label c1 = none))
    (hw : w = (outdeg G c1 : ℤ) - (dcount G s c1 : ℤ)) :
    PW G R1 { s with nb_escapes := setMap s.nb_escapes c1 w } := by
  have hdre : ∀ c, dcount G
      ({ s with nb_escapes := setMap s.nb_escapes c1 w } : St) c =
        dcount G s c := fun c => rfl
  refine ⟨⟨hPW.labSpace, hPW.labVal, hPW.seedLab, hPW.wlNodup, hPW.wlLab,
    ?_, hPW.sound⟩, ?_, ?_, hPW.loseDone⟩
  · intro c hc
    have e : c ≠ c1 := fun e => hc (e ▸ hc1s)
    show setMap s.nb_escapes c1 w c = none
    rw [setMap_other _ _ e]
    exact hPW.escNone c hc
  · intro c hc
    rw [hdre c]
    by_cases e : c = c1
    · subst e
      show setMap s.nb_escapes c w c = some _
      rw [setMap_self, if_neg hnotin, hw]
      simp
    · show setMap s.nb_escapes c1 w c = some _
      rw [setMap_other _ _ e]
      have h2 := hPW.escEqR c hc
      rw [h2, ite_mem_cons e]
  · intro c hc hcl hcr
    rw [hdre c]
    by_cases e : c = c1
    · subst e
      have hwne : w ≠ 0 := fun h0 => hne ⟨h0, hcl⟩
      have hle := dcount_le_outdeg G s c
      omega
    · refine hPW.unlabPosR c hc hcl (fun hmem => ?_)
      rcases List.mem_cons.mp hmem with e2 | hm2
      · exact e e2
      · exact hcr hm2

theorem processW_spec {G : Graph} (hWF : WF G) :
    ∀ (R : List Config) (s : St), PW G R s → R.Nodup →
      (∀ c1 ∈ R, c1 ∈ configurations G) →
      ∃ s1, processW R s = some s1 ∧ PW G [] s1 ∧ Mono s s1 ∧
        (∀ c ∈ s.to_process, c ∈ s1.to_process) ∧
        measureW G s1 = measureW G s := by
  intro R
  induction R with
  | nil =>
    intro s hPW hnd hRs
    exact ⟨s, rfl, hPW, monoRefl s, fun c h => h, rfl⟩
  | cons c1 R1 ih =>
    intro s hPW hnd hRs
    have hc1s : c1 ∈ configurations G := hRs c1 (List.mem_cons_self c1 R1)
    obtain ⟨hnotin, hnd2⟩ := List.nodup_cons.mp hnd
    have hesc := hPW.escEqR c1 hc1s
    rw [if_pos (List.mem_cons_self c1 R1)] at hesc
    have heq : processW (c1 :: R1) s =
        (if ((outdeg G c1 : ℤ) - (dcount G s c1 : ℤ) + 1) - 1 = 0 ∧
            s.label c1 = none then
          processW R1
            { s with
                nb_escapes := setMap s.nb_escapes c1
                  (((outdeg G c1 : ℤ) - (dcount G s c1 : ℤ) + 1) - 1),
                label := setMap s.label c1 LOOSING,
                to_process := c1 :: s.to_process }
        else
          processW R1
            { s with
                nb_escapes := setMap s.nb_escapes c1
                  (((outdeg G c1 : ℤ) - (dcount G s c1 : ℤ) + 1) - 1) }) := by
      simp only [processW, hesc]
    rw [heq]
    by_cases hcond : ((outdeg G c1 : ℤ) - (dcount G s c1 : ℤ) + 1) - 1 = 0 ∧
        s.label c1 = none
    · rw [if_pos hcond]
      have hl : s.label c1 = none := hcond.2
      have hdo : dcount G s c1 = outdeg G c1 := by
        have := hcond.1
        omega
      have hall := dcount_eq_outdeg hdo
      have hns : ¬ isSeed c1 := by
        intro hs
        rw [hPW.seedLab c1 hc1s hs] at hl
        cases hl
      have hFc1 : Forced G c1 LOOSING :=
        Forced.flose c1 hc1s hns
          (fun c2 hc2 => hPW.sound c2 WINNING (hall c2 hc2).1)
      have hPW2 := PW_push hPW hc1s hnotin hl hFc1
        (w := ((outdeg G c1 : ℤ) - (dcount G s c1 : ℤ) + 1) - 1) (by ring)
      obtain ⟨s1, hps, hb1, hb2, hb3, hb4⟩ := ih _ hPW2 hnd2
        (fun c hc => hRs c (List.mem_cons_of_mem _ hc))
      refine ⟨s1, hps, hb1, ?_, ?_, ?_⟩
      · refine monoTrans ?_ hb2
        refine ⟨?_, ?_, ?_⟩
        · intro c l h
          have e : c ≠ c1 := by
            intro e
            rw [e, hl] at h
            cases h
          show setMap s.label c1 LOOSING c = some l
          rw [setMap_other _ _ e]
          exact h
        · intro c hlab hout
          show c ∉ c1 :: s.to_process
          intro hmem
          rcases List.mem_cons.mp hmem with rfl | hmem2
          · exact hlab hl
          · exact hout hmem2
        · intro c hc
          rcases List.mem_cons.mp hc with rfl | hmem2
          · exact Or.inr hl
          · exact Or.inl hmem2
      · intro c hc
        exact hb3 c (List.mem_cons_of_mem _ hc)
      · rw [hb4]
        have hU := unlabeledCount_set (G := G) hc1s hl LOOSING
        show unlabeledCount G (setMap s.label c1 LOOSING) +
          (c1 :: s.to_process).length = measureW G s
        rw [List.length_cons]
        unfold measureW
        omega
    · rw [if_neg hcond]
      have hPW2 := PW_dec hPW hc1s hnotin
        (by
          intro hcc
          exact hcond (by
            constructor
            · omega
            · exact hcc.2))
        (w := ((outdeg G c1 : ℤ) - (dcount G s c1 : ℤ) + 1) - 1) (by ring)
      obtain ⟨s1, hps, hb1, hb2, hb3, hb4⟩ := ih _ hPW2 hnd2
        (fun c hc => hRs c (List.mem_cons_of_mem _ hc))
      refine ⟨s1, hps, hb1, ?_, hb3, hb4⟩
      refine monoTrans ?_ hb2
      exact ⟨fun c l h => h, fun c h h2 => h2, fun c h => Or.inl h⟩

theorem iter_spec {G : Graph} (hWF : WF G) {s : St} (hInv : Inv G s)
    {q : Config} {rest : List Config}
    (hperm : List.Perm (q :: rest) s.to_process) :
    ∃ s1, step G q { s with to_process := rest } = some s1 ∧ Inv G s1 ∧
      Mono s s1 ∧ measureW G s1 + 1 = measureW G s := by
  have hqmem : q ∈ s.to_process :=
    hperm.mem_iff.mp (List.mem_cons_self q rest)
  have hnd : (q :: rest).Nodup := hperm.nodup_iff.mpr hInv.wlNodup
  obtain ⟨hqrest, hrestnd⟩ := List.nodup_cons.mp hnd
  have hmemiff : ∀ x : Config, x ∈ s.to_process ↔ (x = q ∨ x ∈ rest) :=
    fun x => hperm.mem_iff.symm.trans List.mem_cons
  have hlen : rest.length + 1 = s.to_process.length := by
    have h2 := hperm.length_eq
    rw [List.length_cons] at h2
    omega
  obtain ⟨lab, hql⟩ := Option.ne_none_iff_exists'.mp
    (hInv.wlLab q hqmem)
  have hqspace : q ∈ configurations G :=
    hInv.labSpace q (by rw [hql]; simp)
  have hmono0 : Mono s { s with to_process := rest } := by
    refine ⟨fun c l h => h, ?_, ?_⟩
    · intro c hlab hout hmem
      show False
      exact hout (hmemiff c |>.mpr (Or.inr hmem))
    · intro c hc
      exact Or.inl ((hmemiff c).mpr (Or.inr hc))
  have hmeas0 : measureW G { s with to_process := rest } + 1 = measureW G s := by
    show unlabeledCount G s.label + rest.length + 1 = measureW G s
    unfold measureW
    omega
  rcases hInv.labVal q lab hql with rfl | rfl
  · -- popped configuration is LOSING
    have hstep : step G q { s with to_process := rest } =
        some (processL (move q G BACKWARD) { s with to_process := rest }) := by
      simp [step, hql]
    have hdc : ∀ c, dcount G ({ s with to_process := rest } : St) c =
        dcount G s c := by
      intro c
      refine dcount_congr (fun b hb => ?_)
      show (s.label b = some WINNING ∧ b ∉ rest) ↔ _
      by_cases e : b = q
      · subst e
        constructor
        · rintro ⟨hw, -⟩
          have h3 := hql.symm.trans hw
          injection h3 with e2
          cases e2
        · rintro ⟨hw, -⟩
          have h3 := hql.symm.trans hw
          injection h3 with e2
          cases e2
      · constructor
        · rintro ⟨hw, hout⟩
          refine ⟨hw, fun hmem => ?_⟩
          rcases (hmemiff b).mp hmem with e2 | hm2
          · exact e e2
          · exact hout hm2
        · rintro ⟨hw, hout⟩
          exact ⟨hw, fun hmem => hout ((hmemiff b).mpr (Or.inr hmem))⟩
    have hPL : PL G q { s with to_process := rest } := by
      refine ⟨⟨hInv.labSpace, hInv.labVal, hInv.seedLab, hrestnd, ?_,
        hInv.escNone, hInv.sound⟩, ?_, ?_, ?_⟩
      · intro c hc
        exact hInv.wlLab c ((hmemiff c).mpr (Or.inr hc))
      · intro c hc
        rw [hdc c]
        exact hInv.escEq c hc
      · intro c hc hcl
        rw [hdc c]
        exact hInv.unlabPos c hc hcl
      · intro q1 hq1ne hq1l hq1out
        refine hInv.loseDone q1 hq1l (fun hmem => ?_)
        rcases (hmemiff q1).mp hmem with e2 | hm2
        · exact hq1ne e2
        · exact hq1out hm2
    have hFq : Forced G q LOOSING := hInv.sound q LOOSING hql
    have hq2 := (mem_configurations.mp hqspace).2.2
    obtain ⟨ha1, ha2, ha3, ha4, ha5, ha6, ha7, ha8⟩ :=
      processL_spec hWF hFq (move q G BACKWARD)
        { s with to_process := rest } hPL
        (fun c1 hc1 => mem_configurations_move hWF hqspace hc1)
        (fun c1 hc1 => mem_move_fwd_of_back hWF hq2 hc1)
    refine ⟨_, hstep, ⟨ha1.toCore, ha1.escEq, ha1.unlabPos, ?_⟩,
      monoTrans hmono0 ha3, by omega⟩
    intro q1 hq1l hq1out c2 hc2
    by_cases e : q1 = q
    · subst e
      exact ha2 c2 hc2
    · exact ha1.loseDoneExc q1 e hq1l hq1out c2 hc2
  · -- popped configuration is WINNING
    have hstep : step G q { s with to_process := rest } =
        processW (move q G BACKWARD) { s with to_process := rest } := by
      simp [step, hql, WINNING, LOOSING]
    have hiff : ∀ c : Config, c ∈ configurations G →
        (c ∈ move q G BACKWARD ↔ q ∈ move c G FORWARD) := by
      intro c hc
      exact mem_move_backward_iff hWF (mem_configurations.mp hqspace).2.2
        (mem_configurations.mp hc).2.2
    have hdc : ∀ c, q ∈ move c G FORWARD →
        dcount G ({ s with to_process := rest } : St) c =
          dcount G s c + 1 := by
      intro c hqm
      refine length_filter_flip (move_nodup hWF c FORWARD) hqm ?_ ?_ ?_
      · rw [decide_eq_false_iff_not]
        rintro ⟨-, hcon⟩
        exact hcon hqmem
      · rw [decide_eq_true_eq]
        exact ⟨hql, hqrest⟩
      · intro b hb hbq
        refine decide_eq_decide.mpr ?_
        constructor
        · rintro ⟨hw, hout⟩
          exact ⟨hw, fun hmem => hout ((hmemiff b).mpr (Or.inr hmem))⟩
        · rintro ⟨hw, hout⟩
          refine ⟨hw, fun hmem => ?_⟩
          rcases (hmemiff b).mp hmem with e2 | hm2
          · exact hbq e2
          · exact hout hm2
    have hdc2 : ∀ c, q ∉ move c G FORWARD →
        dcount G ({ s with to_process := rest } : St) c = dcount G s c := by
      intro c hqm
      refine dcount_congr (fun b hb => ?_)
      have hbq : b ≠ q := fun e => hqm (e ▸ hb)
      show (s.label b = some WINNING ∧ b ∉ rest) ↔ _
      constructor
      · rintro ⟨hw, hout⟩
        refine ⟨hw, fun hmem => ?_⟩
        rcases (hmemiff b).mp hmem with e2 | hm2
        · exact hbq e2
        · exact hout hm2
      · rintro ⟨hw, hout⟩
        exact ⟨hw, fun hmem => hout ((hmemiff b).mpr (Or.inr hmem))⟩
    have hPW : PW G (move q G BACKWARD) { s with to_process := rest } := by
      refine ⟨⟨hInv.labSpace, hInv.labVal, hInv.seedLab, hrestnd, ?_,
        hInv.escNone, hInv.sound⟩, ?_, ?_, ?_⟩
      · intro c hc
        exact hInv.wlLab c ((hmemiff c).mpr (Or.inr hc))
      · intro c hc
        show s.nb_escapes c = some _
        rw [hInv.escEq c hc]
        by_cases hqm : q ∈ move c G FORWARD
        · rw [hdc c hqm, if_pos ((hiff c hc).mpr hqm)]
          push_cast
          ring_nf
        · rw [hdc2 c hqm, if_neg (fun hm => hqm ((hiff c hc).mp hm))]
          simp
      · intro c hc hcl hcr
        have hqm : q ∉ move c G FORWARD := fun hm =>
          hcr ((hiff c hc).mpr hm)
        rw [hdc2 c hqm]
        exact hInv.unlabPos c hc hcl
      · intro q1 hq1l hq1out
        have e : q1 ≠ q := by
          intro e
          have h3 := hql.symm.trans (e ▸ hq1l)
          injection h3 with e2
          cases e2
        refine hInv.loseDone q1 hq1l (fun hmem => ?_)
        rcases (hmemiff q1).mp hmem with e2 | hm2
        · exact e e2
        · exact hq1out hm2
    obtain ⟨s1, hps, hb1, hb2, hb3, hb4⟩ :=
      processW_spec hWF (move q G BACKWARD) { s with to_process := rest }
        hPW (move_nodup hWF q BACKWARD)
        (fun c1 hc1 => mem_configurations_move hWF hqspace hc1)
    refine ⟨s1, by rw [hstep]; exact hps,
      ⟨hb1.toCore, ?_, ?_, hb1.loseDone⟩, monoTrans hmono0 hb2, by omega⟩
    · intro c hc
      have h2 := hb1.escEqR c hc
      rw [if_neg (List.not_mem_nil c)] at h2
      rw [h2]
      simp
    · intro c hc hcl
      exact hb1.unlabPosR c hc hcl (List.not_mem_nil c)

theorem loop_some {G : Graph} (hWF : WF G)
    {pick : Config → List Config → Config × List Config}
    (hpick : GoodPick pick) :
    ∀ (fuel : ℕ) (s : St), Inv G s →
      ∃ s1, loopSolve G pick fuel s = some s1 ∧ Inv G s1 ∧ Mono s s1 := by
  intro fuel
  induction fuel with
  | zero =>
    intro s hInv
    exact ⟨s, rfl, hInv, monoRefl s⟩
  | succ fuel ih =>
    intro s hInv
    cases hto : s.to_process with
    | nil =>
      refine ⟨s, ?_, hInv, monoRefl s⟩
      simp [loopSolve, hto]
    | cons c r =>
      have hperm : List.Perm ((pick c r).1 :: (pick c r).2) s.to_process := by
        rw [hto]
        exact hpick c r
      obtain ⟨s1, hstep, hInv1, hMono1, hmeas⟩ := iter_spec hWF hInv hperm
      obtain ⟨s2, hloop, hInv2, hMono2⟩ := ih s1 hInv1
      refine ⟨s2, ?_, hInv2, monoTrans hMono1 hMono2⟩
      simp [loopSolve, hto, hstep, hloop]

theorem loop_drain {G : Graph} (hWF : WF G)
    {pick : Config → List Config → Config × List Config}
    (hpick : GoodPick pick) :
    ∀ (fuel : ℕ) (s : St), Inv G s → measureW G s ≤ fuel →
      ∃ s1, loopSolve G pick fuel s = some s1 ∧ Inv G s1 ∧ Mono s s1 ∧
        s1.to_process = [] := by
  intro fuel
  induction fuel with
  | zero =>
    intro s hInv hm
    refine ⟨s, rfl, hInv, monoRefl s, ?_⟩
    have h2 : s.to_process.length = 0 := by
      unfold measureW at hm
      omega
    exact List.length_eq_zero.mp h2
  | succ fuel ih =>
    intro s hInv hm
    cases hto : s.to_process with
    | nil =>
      exact ⟨s, by simp [loopSolve, hto], hInv, monoRefl s, hto⟩
    | cons c r =>
      have hperm : List.Perm ((pick c r).1 :: (pick c r).2) s.to_process := by
        rw [hto]
        exact hpick c r
      obtain ⟨s1, hstep, hInv1, hMono1, hmeas⟩ := iter_spec hWF hInv hperm
      obtain ⟨s2, hloop, hInv2, hMono2, hemp⟩ := ih s1 hInv1 (by omega)
      exact ⟨s2, by simp [loopSolve, hto, hstep, hloop], hInv2,
        monoTrans hMono1 hMono2, hemp⟩

theorem configurations_length (G : Graph) :
    (configurations G).length = 2 * G.length ^ 2 := by
  unfold configurations
  rw [List.length_flatMap]
  simp only [Function.comp_def]
  have hinner : ∀ h : ℕ, ((List.range G.length).flatMap
      (fun k => ([(h, k, HENRI), (h, k, KILLER)] : List Config))).length =
        2 * G.length := by
    intro h
    rw [List.length_flatMap]
    simp only [Function.comp_def]
    have h2 : ((List.range G.length).map
        (fun k => ([(h, k, HENRI), (h, k, KILLER)] : List Config).length)) =
        List.replicate G.length 2 := by
      rw [show (fun k => ([(h, k, HENRI), (h, k, KILLER)] : List Config).length)
        = fun _ : ℕ => 2 from rfl]
      rw [List.map_const', List.length_range]
    rw [h2, List.sum_replicate, smul_eq_mul]
    omega
  have h3 : ((List.range G.length).map
      (fun h => ((List.range G.length).flatMap
        (fun k => ([(h, k, HENRI), (h, k, KILLER)] : List Config))).length)) =
      List.replicate G.length (2 * G.length) := by
    rw [show (fun h => ((List.range G.length).flatMap
        (fun k => ([(h, k, HENRI), (h, k, KILLER)] : List Config))).length) =
      fun h : ℕ => 2 * G.length from funext hinner]
    rw [List.map_const', List.length_range]
  rw [h3, List.sum_replicate, smul_eq_mul]
  ring

theorem measure_init (G : Graph) :
    measureW G (initSt G) ≤ 2 * G.length ^ 2 := by
  have hsplit :
      unlabeledCount G (initLabel G) +
        ((configurations G).filter
          (fun c => !(decide (initLabel G c = none)))).length =
        (configurations G).length := by
    unfold unlabeledCount
    exact (List.length_eq_length_filter_add _).symm
  have hseeds : G.length ≤
      ((configurations G).filter
        (fun c => !(decide (initLabel G c = none)))).length := by
    have hsub : ((List.range G.length).map (fun v => ((v, v, HENRI) : Config)))
        ⊆ (configurations G).filter
          (fun c => !(decide (initLabel G c = none))) := by
      intro c hc
      obtain ⟨v, hv, rfl⟩ := List.mem_map.mp hc
      have hv2 := List.mem_range.mp hv
      refine List.mem_filter.mpr ⟨?_, ?_⟩
      · exact mem_configurations.mpr ⟨hv2, hv2, Or.inl rfl⟩
      · rw [initLabel_seed hv2 rfl rfl]
        simp
    have hnd : ((List.range G.length).map
        (fun v => ((v, v, HENRI) : Config))).Nodup :=
      (List.nodup_range G.length).map (fun a b e => congrArg Prod.fst e)
    have hle := (List.subperm_of_subset hnd hsub).length_le
    simpa using hle
  have hlen : (initSt G).to_process.length = G.length := by
    show (((List.range G.length).map (fun v => (v, v, HENRI))).reverse).length
      = G.length
    simp
  have htot := configurations_length G
  show unlabeledCount G (initLabel G) + (initSt G).to_process.length ≤ _
  rw [hlen]
  omega

theorem goodPick_lifo : GoodPick lifoPick := fun c r => List.Perm.refl _

theorem goodPick_fifo : GoodPick fifoPick := by
  intro c r
  have h2 := List.perm_append_singleton
    ((c :: r).getLast (List.cons_ne_nil c r)) ((c :: r).dropLast)
  rw [List.dropLast_append_getLast] at h2
  exact h2.symm

/-- The main run of the solver loop on a well-formed graph: with `2 n ^ 2`
units of fuel the loop returns a state satisfying the invariant with an
empty worklist, for any admissible pop policy. -/
theorem main_run {G : Graph} (hWF : WF G)
    {pick : Config → List Config → Config × List Config}
    (hpick : GoodPick pick) :
    ∃ s, loopSolve G pick (2 * G.length ^ 2) (initSt G) = some s ∧
      Inv G s ∧ Mono (initSt G) s ∧ s.to_process = [] := by
  obtain ⟨s, h1, h2, h3, h4⟩ :=
    loop_drain hWF hpick (2 * G.length ^ 2) (initSt G) (inv_init hWF)
      (measure_init G)
  exact ⟨s, h1, h2, h3, h4⟩

theorem dcount_full {G : Graph} {s : St} {c : Config}
    (hemp : s.to_process = [])
    (hall : ∀ c1 ∈ move c G FORWARD, s.label c1 = some WINNING) :
    dcount G s c = outdeg G c := by
  unfold dcount outdeg
  rw [List.filter_eq_self.mpr ?_]
  intro b hb
  rw [decide_eq_true_eq]
  refine ⟨hall b hb, ?_⟩
  rw [hemp]
  exact List.not_mem_nil b

/-- At a terminal state every semantically forced configuration carries its
forced label (completeness of the propagation). -/
theorem terminal_complete {G : Graph} (hWF : WF G) {s : St} (hInv : Inv G s)
    (hemp : s.to_process = []) :
    ∀ (c : Config) (l : ℕ), Forced G c l → s.label c = some l := by
  intro c l hF
  induction hF with
  | seed v hv =>
    exact hInv.seedLab (v, v, HENRI)
      (mem_configurations.mpr ⟨hv, hv, Or.inl rfl⟩) ⟨rfl, rfl⟩
  | fwin c c1 hc hns hm hF ih =>
    have hout : c1 ∉ s.to_process := by
      rw [hemp]
      exact List.not_mem_nil c1
    have hc1s : c1 ∈ configurations G := mem_configurations_move hWF hc hm
    have hpred : c ∈ move c1 G BACKWARD :=
      mem_move_back_of_fwd hWF (mem_configurations.mp hc).2.2 hm
    have hlab := hInv.loseDone c1 ih hout c hpred
    obtain ⟨l2, hl2⟩ := Option.ne_none_iff_exists'.mp hlab
    rcases hInv.labVal c l2 hl2 with rfl | rfl
    · have hF2 := hInv.sound c LOOSING hl2
      have he := Forced_unique hF2 WINNING (Forced.fwin c c1 hc hns hm hF)
      exact absurd he (by decide)
    · exact hl2
  | flose c hc hns hall ih =>
    cases hl : s.label c with
    | none =>
      exfalso
      have hpos := hInv.unlabPos c hc hl
      have hdo : dcount G s c = outdeg G c := dcount_full hemp ih
      omega
    | some l2 =>
      rcases hInv.labVal c l2 hl with rfl | rfl
      · rfl
      · exfalso
        have hF2 := hInv.sound c WINNING hl
        have he := Forced_unique hF2 LOOSING (Forced.flose c hc hns hall)
        exact absurd he (by decide)

theorem seed_succ_forced_win {G : Graph} (hWF : WF G) {v : ℕ}
    (hv : v < G.length) {c1 : Config}
    (hm : c1 ∈ move (v, v, HENRI) G FORWARD) : Forced G c1 WINNING := by
  rcases mem_move.mp hm with ⟨-, h1, hx, rfl⟩ | ⟨hne, -⟩
  · refine Forced.fwin _ (h1, h1, HENRI) ?_ ?_ ?_
      (Forced.seed h1 (nbrs_lt hWF hx).1)
    · exact mem_configurations.mpr ⟨(nbrs_lt hWF hx).1, hv, Or.inr rfl⟩
    · rintro ⟨-, e⟩
      have e2 : (1 - HENRI : ℕ) = HENRI := e
      exact absurd e2 (by decide)
    · exact mem_move.mpr (Or.inr ⟨by decide, h1, hx, rfl⟩)
  · exact absurd rfl hne

theorem seed_succ_win_of {G : Graph} (hWF : WF G) {c : Config}
    (hc : c ∈ configurations G) (hs : isSeed c) {c1 : Config}
    (hm : c1 ∈ move c G FORWARD) : Forced G c1 WINNING := by
  obtain ⟨h, k, t⟩ := c
  obtain ⟨e1, e2⟩ := hs
  simp only at e1 e2
  subst e1
  subst e2
  exact seed_succ_forced_win hWF (mem_configurations.mp hc).1 hm

/-- At a terminal state, the label map is a fixed point of the two
propagation rules: WINNING iff some forward successor is LOSING, LOSING iff
every forward successor is WINNING. -/
theorem terminal_char {G : Graph} (hWF : WF G) {s : St} (hInv : Inv G s)
    (hemp : s.to_process = []) {c : Config} (hc : c ∈ configurations G) :
    (s.label c = some WINNING ↔
      ∃ c1 ∈ move c G FORWARD, s.label c1 = some LOOSING) ∧
    (s.label c = some LOOSING ↔
      ∀ c1 ∈ move c G FORWARD, s.label c1 = some WINNING) := by
  constructor
  · constructor
    · intro hl
      obtain ⟨c1, hm, hF1⟩ := Forced_win_exists (hInv.sound c WINNING hl) rfl
      exact ⟨c1, hm, terminal_complete hWF hInv hemp c1 LOOSING hF1⟩
    · rintro ⟨c1, hm, hl1⟩
      have hF1 : Forced G c1 LOOSING := hInv.sound c1 LOOSING hl1
      by_cases hs : isSeed c
      · exfalso
        have hFw := seed_succ_win_of hWF hc hs hm
        exact absurd (Forced_unique hF1 WINNING hFw) (by decide)
      · exact terminal_complete hWF hInv hemp c WINNING
          (Forced.fwin c c1 hc hs hm hF1)
  · constructor
    · intro hl c1 hm
      rcases Forced_lose_char (hInv.sound c LOOSING hl) rfl with hs | ⟨-, hall⟩
      · exact terminal_complete hWF hInv hemp c1 WINNING
          (seed_succ_win_of hWF hc hs hm)
      · exact terminal_complete hWF hInv hemp c1 WINNING (hall c1 hm)
    · intro hall
      cases hl : s.label c with
      | none =>
        exfalso
        have hpos := hInv.unlabPos c hc hl
        have hdo : dcount G s c = outdeg G c := dcount_full hemp hall
        omega
      | some l2 =>
        rcases hInv.labVal c l2 hl with rfl | rfl
        · rfl
        · exfalso
          obtain ⟨c1, hm, hF1⟩ :=
            Forced_win_exists (hInv.sound c WINNING hl) rfl
          have hw := hall c1 hm
          have hF2 := hInv.sound c1 WINNING hw
          exact absurd (Forced_unique hF1 WINNING hF2) (by decide)

/-- Terminal label maps are unique: any two terminal invariant states agree
on every configuration of the space. -/
theorem terminal_label_agree {G : Graph} (hWF : WF G) {s1 s2 : St}
    (h1 : Inv G s1) (e1 : s1.to_process = [])
    (h2 : Inv G s2) (e2 : s2.to_process = [])
    {c : Config} (hc : c ∈ configurations G) :
    s1.label c = s2.label c := by
  cases ha : s1.label c with
  | some l =>
    rw [terminal_complete hWF h2 e2 c l (h1.sound c l ha)]
  | none =>
    cases hb : s2.label c with
    | none => rfl
    | some l =>
      have h3 := terminal_complete hWF h1 e1 c l (h2.sound c l hb)
      rw [ha] at h3
      cases h3

theorem all_congr {l : List ℕ} {p q : ℕ → Bool}
    (h : ∀ a ∈ l, p a = q a) : l.all p = l.all q := by
  induction l with
  | nil => rfl
  | cons x xs ih =>
    rw [List.all_cons, List.all_cons, h x (List.mem_cons_self x xs),
      ih (fun a ha => h a (List.mem_cons_of_mem _ ha))]

theorem mem_safeList {G : Graph} {m : Config → Option ℕ} {h : ℕ} :
    h ∈ safeList G m ↔
      h < G.length ∧ ∀ k, k < G.length → k ≠ h →
        ¬ m (h, k, HENRI) = some LOOSING := by
  unfold safeList
  rw [List.mem_filter, List.mem_range]
  constructor
  · rintro ⟨hh, hall⟩
    refine ⟨hh, ?_⟩
    intro k hk hne hl
    have h2 := List.all_eq_true.mp hall k (List.mem_range.mpr hk)
    rw [if_pos ⟨hne, hl⟩] at h2
    cases h2
  · rintro ⟨hh, hall⟩
    refine ⟨hh, List.all_eq_true.mpr ?_⟩
    intro k hk
    rw [if_neg (fun hc => hall k (List.mem_range.mp hk) hc.1 hc.2)]

theorem safeList_congr {G : Graph} {m1 m2 : Config → Option ℕ}
    (hagree : ∀ hh k : ℕ, hh < G.length → k < G.length →
      m1 (hh, k, HENRI) = m2 (hh, k, HENRI)) :
    safeList G m1 = safeList G m2 := by
  unfold safeList
  refine List.filter_congr ?_
  intro hh hmem
  have hh2 := List.mem_range.mp hmem
  refine all_congr ?_
  intro k hk
  have hk2 := List.mem_range.mp (hk)
  have he := hagree hh k hh2 hk2
  simp only [he]

/-- C6: for every graph with symmetric adjacency and every pair of
configurations (turn components in `{HENRI, KILLER}`), `c1` is yielded by
`move c G BACKWARD` exactly when `c` is yielded by `move c1 G FORWARD`: the
backward direction of the single generator enumerates exactly the
forward-move predecessors. -/
theorem claim_C6 {G : Graph} (hWF : WF G) {c c1 : Config}
    (ht : c.2.2 = HENRI ∨ c.2.2 = KILLER)
    (ht1 : c1.2.2 = HENRI ∨ c1.2.2 = KILLER) :
    c1 ∈ move c G BACKWARD ↔ c ∈ move c1 G FORWARD :=
  mem_move_backward_iff hWF ht ht1

theorem claim_C6_witness :
    WF [[0]] ∧
      (((0, 0, HENRI) : Config) ∈ move (0, 0, KILLER) [[0]] BACKWARD ↔
        ((0, 0, KILLER) : Config) ∈ move (0, 0, HENRI) [[0]] FORWARD) :=
  ⟨by decide, claim_C6 (by decide) (Or.inr rfl) (Or.inl rfl)⟩

/-- C1: after the solver loop terminates on a well-formed graph, the label
map is a fixed point of the propagation rules: a configuration is labeled
WINNING iff some forward successor is labeled LOSING, and labeled LOSING
iff every forward successor is labeled WINNING. -/
theorem claim_C1 {G : Graph} (hWF : WF G) :
    ∃ s, solveState G lifoPick = some s ∧
      ∀ c ∈ configurations G,
        (s.label c = some WINNING ↔
          ∃ c1 ∈ move c G FORWARD, s.label c1 = some LOOSING) ∧
        (s.label c = some LOOSING ↔
          ∀ c1 ∈ move c G FORWARD, s.label c1 = some WINNING) := by
  obtain ⟨s, hrun, hInv, -, hemp⟩ := main_run hWF goodPick_lifo
  exact ⟨s, hrun, fun c hc => terminal_char hWF hInv hemp hc⟩

theorem claim_C1_witness :
    WF [[0], [1]] ∧
      (∃ s, solveState [[0], [1]] lifoPick = some s ∧
        ∀ c ∈ configurations [[0], [1]],
          (s.label c = some WINNING ↔
            ∃ c1 ∈ move c [[0], [1]] FORWARD, s.label c1 = some LOOSING) ∧
          (s.label c = some LOOSING ↔
            ∀ c1 ∈ move c [[0], [1]] FORWARD,
              s.label c1 = some WINNING)) :=
  ⟨by decide, claim_C1 (by decide)⟩

/-- C2: a vertex is in the list returned by the solver iff for every other
vertex `k` the configuration `(h, k, HENRI)` is unlabeled or labeled WINNING
at the fixed point; configurations with `h = k` are excluded from the
check. -/
theorem claim_C2 {G : Graph} (hWF : WF G) :
    ∃ s, solveState G lifoPick = some s ∧
      solve G = some (safeList G s.label) ∧
      ∀ h : ℕ, (h ∈ safeList G s.label ↔
        h < G.length ∧ ∀ k, k < G.length → k ≠ h →
          (s.label (h, k, HENRI) = none ∨
            s.label (h, k, HENRI) = some WINNING)) := by
  obtain ⟨s, hrun, hInv, -, hemp⟩ := main_run hWF goodPick_lifo
  have hss : solveState G lifoPick = some s := hrun
  refine ⟨s, hss, ?_, ?_⟩
  · unfold solve solveWith
    simp only [hss]
    rw [if_pos hemp]
  · intro h
    rw [mem_safeList]
    constructor
    · rintro ⟨hh, hall⟩
      refine ⟨hh, ?_⟩
      intro k hk hne
      cases hl : s.label (h, k, HENRI) with
      | none => exact Or.inl rfl
      | some l =>
        rcases hInv.labVal _ l hl with rfl | rfl
        · exact absurd hl (hall k hk hne)
        · exact Or.inr rfl
    · rintro ⟨hh, hall⟩
      refine ⟨hh, ?_⟩
      intro k hk hne hl
      rcases hall k hk hne with h2 | h2
      · rw [h2] at hl
        cases hl
      · rw [h2] at hl
        injection hl with e
        cases e

theorem claim_C2_witness :
    WF [[0], [1]] ∧
      (∃ s, solveState [[0], [1]] lifoPick = some s ∧
        solve [[0], [1]] = some (safeList [[0], [1]] s.label) ∧
        ∀ h : ℕ, (h ∈ safeList [[0], [1]] s.label ↔
          h < 2 ∧ ∀ k, k < 2 → k ≠ h →
            (s.label (h, k, HENRI) = none ∨
              s.label (h, k, HENRI) = some WINNING))) :=
  ⟨by decide, claim_C2 (by decide)⟩

/-- C3: along any run of the solver loop, worklist members are always
labeled, labels are write-once (a set label persists), a labeled
configuration that has left the worklist never re-enters it, and any new
worklist entry was unlabeled before (so every configuration is pushed at
most once, exactly when it is first labeled). -/
theorem claim_C3 {G : Graph} (hWF : WF G) {j m : ℕ} {s s1 : St}
    (h1 : loopSolve G lifoPick j (initSt G) = some s)
    (h2 : loopSolve G lifoPick m s = some s1) :
    (∀ c ∈ s.to_process, s.label c ≠ none) ∧
    (∀ c l, s.label c = some l → s1.label c = some l) ∧
    (∀ c : Config, s.label c ≠ none → c ∉ s.to_process →
      c ∉ s1.to_process) ∧
    (∀ c : Config, c ∈ s1.to_process →
      c ∈ s.to_process ∨ s.label c = none) := by
  obtain ⟨s2, hrun, hInv, -⟩ :=
    loop_some hWF goodPick_lifo j (initSt G) (inv_init hWF)
  rw [h1] at hrun
  injection hrun with e
  rw [← e] at hInv
  obtain ⟨s3, hrun2, hInv2, hM2⟩ := loop_some hWF goodPick_lifo m s hInv
  rw [h2] at hrun2
  injection hrun2 with e2
  rw [← e2] at hM2
  exact ⟨hInv.wlLab, hM2.labMono, hM2.stayOut, hM2.newUnlab⟩

theorem claim_C3_witness :
    WF [[0]] ∧
      (∃ s s1 : St, loopSolve [[0]] lifoPick 1 (initSt [[0]]) = some s ∧
        loopSolve [[0]] lifoPick 1 s = some s1 ∧
        ((∀ c ∈ s.to_process, s.label c ≠ none) ∧
          (∀ c l, s.label c = some l → s1.label c = some l) ∧
          (∀ c : Config, s.label c ≠ none → c ∉ s.to_process →
            c ∉ s1.to_process) ∧
          (∀ c : Config, c ∈ s1.to_process →
            c ∈ s.to_process ∨ s.label c = none))) := by
  refine ⟨by decide, _, _, rfl, rfl,
    claim_C3 (G := [[0]]) (j := 1) (m := 1) (by decide) rfl rfl⟩

/-- C4 (amended): along any run of the solver loop, every escape counter
stays non-negative, and a counter value of zero implies the configuration is
labeled LOSING; rule-1 seeds may also reach zero, so a zero counter does not
imply the label was deduced via rule 3. -/
theorem claim_C4_amended {G : Graph} (hWF : WF G) {j : ℕ} {s : St}
    (hrun : loopSolve G lifoPick j (initSt G) = some s) :
    (∀ (c : Config) (e : ℤ), s.nb_escapes c = some e → 0 ≤ e) ∧
    (∀ c : Config, s.nb_escapes c = some 0 →
      s.label c = some LOOSING) := by
  obtain ⟨s2, hrun2, hInv, -⟩ :=
    loop_some hWF goodPick_lifo j (initSt G) (inv_init hWF)
  rw [hrun] at hrun2
  injection hrun2 with e
  rw [← e] at hInv
  constructor
  · intro c e he
    have hcs : c ∈ configurations G := by
      by_contra hns
      rw [hInv.escNone c hns] at he
      cases he
    rw [hInv.escEq c hcs] at he
    injection he with e2
    have hle := dcount_le_outdeg G s c
    omega
  · intro c h0
    have hcs : c ∈ configurations G := by
      by_contra hns
      rw [hInv.escNone c hns] at h0
      cases h0
    rw [hInv.escEq c hcs] at h0
    injection h0 with e2
    have hdo : dcount G s c = outdeg G c := by omega
    have hall := dcount_eq_outdeg hdo
    cases hl : s.label c with
    | none =>
      have hpos := hInv.unlabPos c hcs hl
      omega
    | some l =>
      rcases hInv.labVal c l hl with rfl | rfl
      · rfl
      · exfalso
        obtain ⟨c1, hm, hF1⟩ :=
          Forced_win_exists (hInv.sound c WINNING hl) rfl
        have hw := (hall c1 hm).1
        have hF2 := hInv.sound c1 WINNING hw
        exact absurd (Forced_unique hF1 WINNING hF2) (by decide)

theorem claim_C4_amended_witness :
    WF [[0]] ∧
      (∃ s : St, loopSolve [[0]] lifoPick 2 (initSt [[0]]) = some s ∧
        ((∀ (c : Config) (e : ℤ), s.nb_escapes c = some e → 0 ≤ e) ∧
          (∀ c : Config, s.nb_escapes c = some 0 →
            s.label c = some LOOSING))) := by
  refine ⟨by decide, _, rfl, claim_C4_amended (G := [[0]]) (j := 2) (by decide) rfl⟩

/-- C4 (counterexample to the claim as stated): on the one-vertex graph the
seed configuration `(0, 0, HENRI)` is labeled LOSING already at
initialization (rule 1, not rule 3), yet its escape counter reaches zero
during the run: the counter reaching zero is not equivalent to being
deduced LOSING via the universal rule. -/
theorem claim_C4_counterexample :
    (initSt [[0]]).label (0, 0, HENRI) = some LOOSING ∧
    (loopSolve [[0]] lifoPick 2 (initSt [[0]])).map
      (fun s => (s.nb_escapes (0, 0, HENRI), s.label (0, 0, HENRI),
        s.to_process)) = some (some 0, some LOOSING, []) := by
  constructor
  · rfl
  · rfl

/-- C5: on a well-formed graph with `n` vertices the worklist loop drains
within `2 n ^ 2` pops: running it with exactly that much fuel (one unit per
pop) returns a state with an empty worklist. -/
theorem claim_C5 {G : Graph} (hWF : WF G) :
    ∃ s, loopSolve G lifoPick (2 * G.length ^ 2) (initSt G) = some s ∧
      s.to_process = [] := by
  obtain ⟨s, h1, -, -, h4⟩ := main_run hWF goodPick_lifo
  exact ⟨s, h1, h4⟩

theorem claim_C5_witness :
    WF [[0], [1]] ∧
      (∃ s, loopSolve [[0], [1]] lifoPick (2 * 2 ^ 2) (initSt [[0], [1]]) =
        some s ∧ s.to_process = []) :=
  ⟨by decide, claim_C5 (by decide)⟩

/-- C7: the solver is total on well-formed input: the loop never hits the
dictionary-error branch for any amount of fuel, and the whole solver
returns a result. -/
theorem claim_C7 {G : Graph} (hWF : WF G) :
    (∀ fuel : ℕ, ∃ s, loopSolve G lifoPick fuel (initSt G) = some s) ∧
    ∃ s, solveState G lifoPick = some s ∧
      solve G = some (safeList G s.label) := by
  constructor
  · intro fuel
    obtain ⟨s, h1, -, -⟩ :=
      loop_some hWF goodPick_lifo fuel (initSt G) (inv_init hWF)
    exact ⟨s, h1⟩
  · obtain ⟨s, h1, -, -, h4⟩ := main_run hWF goodPick_lifo
    have hss : solveState G lifoPick = some s := h1
    refine ⟨s, hss, ?_⟩
    unfold solve solveWith
    simp only [hss]
    rw [if_pos h4]

theorem claim_C7_witness :
    WF [[0]] ∧
      ((∀ fuel : ℕ, ∃ s, loopSolve [[0]] lifoPick fuel (initSt [[0]]) =
        some s) ∧
      ∃ s, solveState [[0]] lifoPick = some s ∧
        solve [[0]] = some (safeList [[0]] s.label)) :=
  ⟨by decide, claim_C7 (by decide)⟩

/-- C8: the solver is deterministic (running it twice yields the same
result) and its safe-vertex output does not depend on the worklist pop
order: the FIFO variant returns exactly what the LIFO solver of the source
returns. -/
theorem claim_C8 {G : Graph} (hWF : WF G) :
    solve G = solve G ∧ solveFIFO G = solve G := by
  refine ⟨rfl, ?_⟩
  obtain ⟨sL, hrunL, hInvL, -, hempL⟩ := main_run hWF goodPick_lifo
  obtain ⟨sF, hrunF, hInvF, -, hempF⟩ := main_run hWF goodPick_fifo
  have hag : safeList G sF.label = safeList G sL.label := by
    refine safeList_congr ?_
    intro hh k hhl hkl
    exact terminal_label_agree hWF hInvF hempF hInvL hempL
      (mem_configurations.mpr ⟨hhl, hkl, Or.inl rfl⟩)
  have hssL : solveState G lifoPick = some sL := hrunL
  have hssF : solveState G fifoPick = some sF := hrunF
  show solveWith G fifoPick = solveWith G lifoPick
  unfold solveWith
  simp only [hssL, hssF]
  rw [if_pos hempL, if_pos hempF, hag]

theorem claim_C8_witness :
    WF [[0], [1]] ∧
      (solve [[0], [1]] = solve [[0], [1]] ∧
        solveFIFO [[0], [1]] = solve [[0], [1]]) :=
  ⟨by decide, claim_C8 (by decide)⟩

/-- C9: on the graph with two self-looped vertices and no edge between
them, the solver returns both vertices as safe, and the configuration
`(0, 1, HENRI)` is left unlabeled at the fixed point. -/
theorem claim_C9 :
    solve [[0], [1]] = some [0, 1] ∧
    (solveState [[0], [1]] lifoPick).map
      (fun s => s.label (0, 1, HENRI)) = some none := by
  constructor
  · rfl
  · rfl

/-- C10: whenever the solver returns a list, that list is strictly
increasing (hence duplicate-free) and contains only vertex indices below
`n`. -/
theorem claim_C10 {G : Graph} {l : List ℕ} (h : solve G = some l) :
    l.Pairwise (· < ·) ∧ ∀ v ∈ l, v < G.length := by
  unfold solve solveWith at h
  cases hss : solveState G lifoPick with
  | none =>
    rw [hss] at h
    cases h
  | some s =>
    simp only [hss] at h
    by_cases hemp : s.to_process = []
    · rw [if_pos hemp] at h
      injection h with e
      subst e
      constructor
      · exact (List.pairwise_lt_range G.length).filter _
      · intro v hv
        exact List.mem_range.mp (List.mem_of_mem_filter hv)
    · rw [if_neg hemp] at h
      cases h

theorem claim_C10_witness :
    solve [[0]] = some [0] ∧
      (([0] : List ℕ).Pairwise (· < ·) ∧ ∀ v ∈ ([0] : List ℕ), v < 1) := by
  refine ⟨rfl, ?_⟩
  have h := claim_C10 (G := [[0]]) (l := [0]) rfl
  exact ⟨h.1, h.2⟩

end ContractKiller
